import Mathlib

/-!
Verification of `src/wasm/cpp/mandelbrot.cpp`.

The file embeds the two exported functions of the C++ source:

* `calculatePoint` — the single-point escape-time evaluator;
* `calculateMandelbrotSet` — the batch evaluator (with its own inlined
  copy of the escape-time loop, a `malloc` for the result buffer and the
  `nullptr` sentinel on allocation failure).

The numeric type `double` is embedded as `ℚ`: every claim below is either
independent of the underlying arithmetic (identical operation sequences,
control flow over an arbitrary linearly ordered field, sign of the radius)
or is evaluated only at inputs whose whole computation is exact in binary
floating point (small integers), so the embedding is faithful for them.
`for`-loops become fuel recursion with the fuel equal to the remaining
trip count; pointers to input arrays become functions `ℕ → ℚ`; the result
of the batch call is `Option (List ℕ)` with `none` standing for the
`nullptr` allocation-failure sentinel, and a Boolean oracle `allocOk`
standing for the success of `malloc`.
-/

namespace Mandelbrot

/-- Loop of `calculatePoint` (mandelbrot.cpp lines 25-38).  Arguments mirror
the C locals: `c_real`/`c_imag` are the constant `c`, `ers` is
`escape_radius_squared`, `z_real`/`z_imag` the current iterate, `iteration`
the loop counter, and `fuel` the remaining trip count
(`max_iterations - iteration`). -/
def pointLoop (c_real c_imag ers z_real z_imag : ℚ) (iteration fuel : ℕ) : ℕ :=
  match fuel with
  | 0 => iteration
  | fuel' + 1 =>
    if z_real * z_real + z_imag * z_imag > ers then
      iteration
    else
      pointLoop c_real c_imag ers
        (z_real * z_real - z_imag * z_imag + c_real)
        (2 * z_real * z_imag + c_imag)
        (iteration + 1) fuel'

/-- Function `calculatePoint` (mandelbrot.cpp lines 16-43): start from `z = 0`,
square the escape radius once, and run the loop for at most
`max_iterations` steps; if the loop completes, the loop counter equals
`max_iterations`, which is exactly what the fuel recursion returns. -/
def calculatePoint (real imag : ℚ) (max_iterations : ℕ) (escape_radius : ℚ) : ℕ :=
  pointLoop real imag (escape_radius * escape_radius) 0 0 0 max_iterations

/-- Inner loop of `calculateMandelbrotSet` (mandelbrot.cpp lines 81-98).
The C code keeps a separate variable `iteration` outside the loop
(initially `0`), sets `iteration = iter` on the `break` at escape and
`iteration = iter + 1` at the end of each body, and stores `iteration`
after the loop; `iter` is the loop counter and `fuel` the remaining trip
count. -/
def batchInner (c_real c_imag ers z_real z_imag : ℚ) (iteration iter fuel : ℕ) : ℕ :=
  match fuel with
  | 0 => iteration
  | fuel' + 1 =>
    if z_real * z_real + z_imag * z_imag > ers then
      iter
    else
      batchInner c_real c_imag ers
        (z_real * z_real - z_imag * z_imag + c_real)
        (2 * z_real * z_imag + c_imag)
        (iter + 1) (iter + 1) fuel'

/-- Function `calculateMandelbrotSet` (mandelbrot.cpp lines 56-104): allocate the
result buffer (`allocOk` is the success of `malloc`; on failure the
function returns the `nullptr` sentinel, embedded as `none`, without
writing anything), square the escape radius once, and fill slot `i` with
the result of the inlined escape-time loop on `(real_coords[i],
imag_coords[i])`. -/
def calculateMandelbrotSet (real_coords imag_coords : ℕ → ℚ)
    (length max_iterations : ℕ) (escape_radius : ℚ) (allocOk : Bool) :
    Option (List ℕ) :=
  if allocOk then
    some ((List.range length).map fun i =>
      batchInner (real_coords i) (imag_coords i)
        (escape_radius * escape_radius) 0 0 0 0 max_iterations)
  else
    none

/-- Mathematical orbit `z_0 = 0`, `z_{n+1} = z_n^2 + c`, written with the
same real/imaginary decomposition as the source. -/
def zseq (c_real c_imag : ℚ) : ℕ → ℚ × ℚ
  | 0 => ((0 : ℚ), (0 : ℚ))
  | n + 1 =>
    let z := zseq c_real c_imag n
    (z.1 * z.1 - z.2 * z.2 + c_real, 2 * z.1 * z.2 + c_imag)

/-- Squared magnitude `|z|^2` of a complex number given by its parts. -/
def magSq (z : ℚ × ℚ) : ℚ := z.1 * z.1 + z.2 * z.2

theorem pointLoop_zero (c ci ers zr zi : ℚ) (k : ℕ) :
    pointLoop c ci ers zr zi k 0 = k := rfl

theorem pointLoop_succ (c ci ers zr zi : ℚ) (k f : ℕ) :
    pointLoop c ci ers zr zi k (f + 1) =
      if zr * zr + zi * zi > ers then k
      else pointLoop c ci ers (zr * zr - zi * zi + c) (2 * zr * zi + ci)
        (k + 1) f := rfl

theorem batchInner_zero (c ci ers zr zi : ℚ) (k j : ℕ) :
    batchInner c ci ers zr zi k j 0 = k := rfl

theorem batchInner_succ (c ci ers zr zi : ℚ) (k j f : ℕ) :
    batchInner c ci ers zr zi k j (f + 1) =
      if zr * zr + zi * zi > ers then j
      else batchInner c ci ers (zr * zr - zi * zi + c) (2 * zr * zi + ci)
        (j + 1) (j + 1) f := rfl

/-- When the outer variable and the loop counter agree, the inlined batch
loop computes exactly the single-point loop. -/
theorem batchInner_eq_pointLoop (c ci ers : ℚ) :
    ∀ (fuel : ℕ) (zr zi : ℚ) (n : ℕ),
      batchInner c ci ers zr zi n n fuel = pointLoop c ci ers zr zi n fuel := by
  intro fuel
  induction fuel with
  | zero => intro zr zi n; rfl
  | succ f ih =>
    intro zr zi n
    rw [batchInner_succ, pointLoop_succ]
    by_cases h : zr * zr + zi * zi > ers
    · simp [h]
    · simp only [h, if_neg, if_false]
      exact ih _ _ _

/-- The loop never returns less than the counter it was entered with. -/
theorem pointLoop_ge (c ci ers : ℚ) :
    ∀ (fuel : ℕ) (zr zi : ℚ) (k : ℕ), k ≤ pointLoop c ci ers zr zi k fuel := by
  intro fuel
  induction fuel with
  | zero => intro zr zi k; exact le_refl k
  | succ f ih =>
    intro zr zi k
    rw [pointLoop_succ]
    by_cases h : zr * zr + zi * zi > ers
    · simp [h]
    · simp only [h, if_false]
      exact le_trans (Nat.le_succ k) (ih _ _ _)

/-- The loop returns at most the counter plus the remaining fuel. -/
theorem pointLoop_le (c ci ers : ℚ) :
    ∀ (fuel : ℕ) (zr zi : ℚ) (k : ℕ),
      pointLoop c ci ers zr zi k fuel ≤ k + fuel := by
  intro fuel
  induction fuel with
  | zero => intro zr zi k; exact Nat.le_refl k
  | succ f ih =>
    intro zr zi k
    rw [pointLoop_succ]
    by_cases h : zr * zr + zi * zi > ers
    · simp [h]
    · simp only [h, if_false]
      calc pointLoop c ci ers (zr * zr - zi * zi + c) (2 * zr * zi + ci)
            (k + 1) f ≤ (k + 1) + f := ih _ _ _
        _ = k + (f + 1) := by omega

/-- Started at orbit position `k`, if none of the next `fuel` orbit points
has escaped, the loop burns all its fuel and returns `k + fuel`. -/
theorem pointLoop_no_escape (c ci ers : ℚ) :
    ∀ (fuel k : ℕ),
      (∀ m, m < fuel → ¬ magSq (zseq c ci (k + m)) > ers) →
      pointLoop c ci ers (zseq c ci k).1 (zseq c ci k).2 k fuel = k + fuel := by
  intro fuel
  induction fuel with
  | zero => intro k _; rfl
  | succ f ih =>
    intro k h
    rw [pointLoop_succ]
    have h0 : ¬ (zseq c ci k).1 * (zseq c ci k).1 +
        (zseq c ci k).2 * (zseq c ci k).2 > ers := by
      have := h 0 (Nat.succ_pos f)
      simpa [magSq] using this
    simp only [h0, if_false]
    have hz : zseq c ci (k + 1) =
        ((zseq c ci k).1 * (zseq c ci k).1 -
          (zseq c ci k).2 * (zseq c ci k).2 + c,
         2 * (zseq c ci k).1 * (zseq c ci k).2 + ci) := rfl
    have h' : ∀ m, m < f → ¬ magSq (zseq c ci (k + 1 + m)) > ers := by
      intro m hm
      have := h (m + 1) (by omega)
      have heq : k + (m + 1) = k + 1 + m := by omega
      rwa [heq] at this
    have := ih (k + 1) h'
    rw [hz] at this
    simp only at this
    rw [this]
    omega

/-- Started at orbit position `k`, if the orbit first escapes `n` steps
later and there is fuel to reach it, the loop stops there and returns
`k + n`. -/
theorem pointLoop_escape (c ci ers : ℚ) :
    ∀ (n k fuel : ℕ), n < fuel →
      magSq (zseq c ci (k + n)) > ers →
      (∀ m, m < n → ¬ magSq (zseq c ci (k + m)) > ers) →
      pointLoop c ci ers (zseq c ci k).1 (zseq c ci k).2 k fuel = k + n := by
  intro n
  induction n with
  | zero =>
    intro k fuel hf hesc _
    obtain ⟨f, rfl⟩ : ∃ f, fuel = f + 1 := ⟨fuel - 1, by omega⟩
    rw [pointLoop_succ]
    have h0 : (zseq c ci k).1 * (zseq c ci k).1 +
        (zseq c ci k).2 * (zseq c ci k).2 > ers := by
      simpa [magSq] using hesc
    simp [h0]
  | succ n ih =>
    intro k fuel hf hesc hmin
    obtain ⟨f, rfl⟩ : ∃ f, fuel = f + 1 := ⟨fuel - 1, by omega⟩
    rw [pointLoop_succ]
    have h0 : ¬ (zseq c ci k).1 * (zseq c ci k).1 +
        (zseq c ci k).2 * (zseq c ci k).2 > ers := by
      have := hmin 0 (Nat.succ_pos n)
      simpa [magSq] using this
    simp only [h0, if_false]
    have hz : zseq c ci (k + 1) =
        ((zseq c ci k).1 * (zseq c ci k).1 -
          (zseq c ci k).2 * (zseq c ci k).2 + c,
         2 * (zseq c ci k).1 * (zseq c ci k).2 + ci) := rfl
    have hesc' : magSq (zseq c ci (k + 1 + n)) > ers := by
      have heq : k + (n + 1) = k + 1 + n := by omega
      rwa [heq] at hesc
    have hmin' : ∀ m, m < n → ¬ magSq (zseq c ci (k + 1 + m)) > ers := by
      intro m hm
      have := hmin (m + 1) (by omega)
      have heq : k + (m + 1) = k + 1 + m := by omega
      rwa [heq] at this
    have := ih (k + 1) f (by omega) hesc' hmin'
    rw [hz] at this
    simp only at this
    rw [this]
    omega

/-- With less fuel the loop returns the minimum of the longer run's result
and its own trip limit. -/
theorem pointLoop_min (c ci ers : ℚ) :
    ∀ (f1 f2 : ℕ) (zr zi : ℚ) (k : ℕ), f1 ≤ f2 →
      pointLoop c ci ers zr zi k f1 =
        min (pointLoop c ci ers zr zi k f2) (k + f1) := by
  intro f1
  induction f1 with
  | zero =>
    intro f2 zr zi k _
    rw [pointLoop_zero]
    have := pointLoop_ge c ci ers f2 zr zi k
    omega
  | succ s ih =>
    intro f2 zr zi k hle
    obtain ⟨t, rfl⟩ : ∃ t, f2 = t + 1 := ⟨f2 - 1, by omega⟩
    rw [pointLoop_succ, pointLoop_succ]
    by_cases h : zr * zr + zi * zi > ers
    · simp only [h, if_true]
      omega
    · simp only [h, if_false]
      have := ih t (zr * zr - zi * zi + c) (2 * zr * zi + ci) (k + 1)
        (by omega)
      rw [this]
      congr 1
      omega

/-- Slot `i` of a successfully produced batch buffer holds exactly the
single-point result on the `i`-th coordinate pair. -/
theorem calculateMandelbrotSet_get (rc ic : ℕ → ℚ) (len M : ℕ) (r : ℚ)
    (res : List ℕ) (h : calculateMandelbrotSet rc ic len M r true = some res)
    (i : ℕ) (hi : i < len) :
    res[i]? = some (calculatePoint (rc i) (ic i) M r) := by
  simp only [calculateMandelbrotSet, if_true, Option.some.injEq] at h
  subst h
  rw [List.getElem?_map, List.getElem?_range hi]
  simp only [Option.map_some']
  rw [batchInner_eq_pointLoop]
  rfl

/-- A successfully produced batch buffer has exactly `length` slots. -/
theorem calculateMandelbrotSet_length (rc ic : ℕ → ℚ) (len M : ℕ) (r : ℚ)
    (res : List ℕ) (h : calculateMandelbrotSet rc ic len M r true = some res) :
    res.length = len := by
  simp only [calculateMandelbrotSet, if_true, Option.some.injEq] at h
  subst h
  simp

theorem zseq_zero (c ci : ℚ) : zseq c ci 0 = (0, 0) := rfl

/-- C1: for every successful batch call and every index `i < length`, the
`i`-th element of the returned buffer equals
`calculatePoint (real_coords[i], imag_coords[i], max_iterations,
escape_radius)` — the inlined batch loop and the single-point evaluator
agree exactly on every input. -/
theorem c1_batch_agrees_with_single (rc ic : ℕ → ℚ) (len M : ℕ) (r : ℚ)
    (res : List ℕ) (h : calculateMandelbrotSet rc ic len M r true = some res)
    (i : ℕ) (hi : i < len) :
    res[i]? = some (calculatePoint (rc i) (ic i) M r) :=
  calculateMandelbrotSet_get rc ic len M r res h i hi

/-- Witness for C1 at `c = (3, 0)` and `c = (1/2, 1/2)`, five iterations,
radius `2`. -/
theorem c1_batch_agrees_with_single_witness :
    (calculateMandelbrotSet (fun i => if i = 0 then 3 else 1/2)
        (fun i => if i = 0 then 0 else 1/2) 2 5 2 true = some [1, 5] ∧
      (0 : ℕ) < 2 ∧ (1 : ℕ) < 2) ∧
    ([1, 5] : List ℕ)[0]? = some (calculatePoint 3 0 5 2) ∧
    ([1, 5] : List ℕ)[1]? = some (calculatePoint (1/2) (1/2) 5 2) := by
  have hb : calculateMandelbrotSet (fun i => if i = 0 then 3 else 1/2)
      (fun i => if i = 0 then 0 else 1/2) 2 5 2 true = some [1, 5] := by
    norm_num [calculateMandelbrotSet, batchInner, List.range_succ]
  refine ⟨⟨hb, by decide, by decide⟩, ?_, ?_⟩
  · have h := c1_batch_agrees_with_single _ _ 2 5 2 [1, 5] hb 0 (by decide)
    simpa using h
  · have h := c1_batch_agrees_with_single _ _ 2 5 2 [1, 5] hb 1 (by decide)
    simpa using h

/-- The single-point evaluator returns the first orbit index whose squared
magnitude strictly exceeds the squared radius, when one exists within the
budget. -/
theorem calculatePoint_first_escape (c ci r : ℚ) (M n : ℕ) (hn : n < M)
    (hesc : magSq (zseq c ci n) > r * r)
    (hmin : ∀ m, m < n → ¬ magSq (zseq c ci m) > r * r) :
    calculatePoint c ci M r = n := by
  have h := pointLoop_escape c ci (r * r) n 0 M (by omega)
    (by simpa using hesc) (by intro m hm; simpa using hmin m hm)
  rw [zseq_zero] at h
  simpa [calculatePoint] using h

/-- C2: if the orbit first exceeds the squared radius strictly at index
`n < max_iterations`, then `calculatePoint` returns exactly `n`: escape is
detected before the update for that index is applied, and a squared
magnitude exactly equal to the squared radius does not count as escaped
(the comparison is strict). -/
theorem c2_first_escape_index (c ci r : ℚ) (M n : ℕ) (hn : n < M)
    (hesc : magSq (zseq c ci n) > r * r)
    (hmin : ∀ m, m < n → ¬ magSq (zseq c ci m) > r * r) :
    calculatePoint c ci M r = n :=
  calculatePoint_first_escape c ci r M n hn hesc hmin

/-- Witness for C2 at `c = 3`, budget `5`, radius `2`: the orbit is
`0, 3, ...` and first escapes at index `1`. -/
theorem c2_first_escape_index_witness :
    ((1 : ℕ) < 5 ∧ magSq (zseq 3 0 1) > 2 * 2 ∧
      (∀ m, m < 1 → ¬ magSq (zseq 3 0 m) > 2 * 2)) ∧
    calculatePoint 3 0 5 2 = 1 := by
  have hesc : magSq (zseq 3 0 1) > (2 : ℚ) * 2 := by
    norm_num [zseq, magSq]
  have hmin : ∀ m, m < 1 → ¬ magSq (zseq 3 0 m) > (2 : ℚ) * 2 := by
    intro m hm
    interval_cases m
    norm_num [zseq, magSq]
  exact ⟨⟨by decide, hesc, hmin⟩,
    c2_first_escape_index 3 0 2 5 1 (by decide) hesc hmin⟩

/-- C3: if no orbit index below `max_iterations` strictly exceeds the
squared radius, `calculatePoint` returns exactly `max_iterations`, and so
does the corresponding element of any successful batch buffer. -/
theorem c3_bounded_returns_max (M : ℕ) (r : ℚ) :
    (∀ c ci : ℚ, (∀ n, n < M → ¬ magSq (zseq c ci n) > r * r) →
      calculatePoint c ci M r = M) ∧
    (∀ (rc ic : ℕ → ℚ) (len : ℕ) (res : List ℕ),
      calculateMandelbrotSet rc ic len M r true = some res →
      ∀ i, i < len → (∀ n, n < M → ¬ magSq (zseq (rc i) (ic i) n) > r * r) →
      res[i]? = some M) := by
  have single : ∀ c ci : ℚ, (∀ n, n < M → ¬ magSq (zseq c ci n) > r * r) →
      calculatePoint c ci M r = M := by
    intro c ci hno
    have h := pointLoop_no_escape c ci (r * r) M 0
      (by intro m hm; simpa using hno m hm)
    rw [zseq_zero] at h
    simpa [calculatePoint] using h
  refine ⟨single, ?_⟩
  intro rc ic len res h i hi hno
  rw [calculateMandelbrotSet_get rc ic len M r res h i hi, single _ _ hno]

/-- Witness for C3 at `c = 0` (orbit constantly `0`), budget `2`, radius
`2`, with a one-element batch. -/
theorem c3_bounded_returns_max_witness :
    ((∀ n, n < 2 → ¬ magSq (zseq 0 0 n) > (2 : ℚ) * 2) ∧
      calculateMandelbrotSet (fun _ => 0) (fun _ => 0) 1 2 2 true =
        some [2]) ∧
    calculatePoint 0 0 2 2 = 2 ∧ ([2] : List ℕ)[0]? = some 2 := by
  have hno : ∀ n, n < 2 → ¬ magSq (zseq 0 0 n) > (2 : ℚ) * 2 := by
    intro n hn
    interval_cases n <;> norm_num [zseq, magSq]
  have hb : calculateMandelbrotSet (fun _ => 0) (fun _ => 0) 1 2 2 true =
      some [2] := by
    norm_num [calculateMandelbrotSet, batchInner, List.range_succ]
  refine ⟨⟨hno, hb⟩, (c3_bounded_returns_max 2 2).1 0 0 hno, ?_⟩
  have h := (c3_bounded_returns_max 2 2).2 (fun _ => 0) (fun _ => 0) 1 [2]
    hb 0 (by decide) hno
  exact h

/-- C4: with a zero iteration budget `calculatePoint` returns `0`
immediately: the loop body never runs. -/
theorem c4_zero_budget (real imag escape_radius : ℚ) :
    calculatePoint real imag 0 escape_radius = 0 := rfl

/-- C5: the single-point result, and every element of a successful batch
buffer, is a non-negative integer in `[0, max_iterations]`. -/
theorem c5_result_in_range (c ci r : ℚ) (M : ℕ) :
    (0 ≤ calculatePoint c ci M r ∧ calculatePoint c ci M r ≤ M) ∧
    (∀ (rc ic : ℕ → ℚ) (len : ℕ) (ok : Bool) (res : List ℕ),
      calculateMandelbrotSet rc ic len M r ok = some res →
      ∀ v ∈ res, 0 ≤ v ∧ v ≤ M) := by
  refine ⟨⟨Nat.zero_le _, ?_⟩, ?_⟩
  · have := pointLoop_le c ci (r * r) M 0 0 0
    simpa [calculatePoint] using this
  · intro rc ic len ok res h v hv
    cases ok with
    | false => simp [calculateMandelbrotSet] at h
    | true =>
      simp only [calculateMandelbrotSet, if_true, Option.some.injEq] at h
      subst h
      obtain ⟨i, _, rfl⟩ := List.mem_map.mp hv
      refine ⟨Nat.zero_le _, ?_⟩
      rw [batchInner_eq_pointLoop]
      have := pointLoop_le (rc i) (ic i) (r * r) M 0 0 0
      simpa using this

/-- Witness for C5 on a two-point batch with budget `5`. -/
theorem c5_result_in_range_witness :
    ((0 ≤ calculatePoint 3 0 5 2 ∧ calculatePoint 3 0 5 2 ≤ 5) ∧
      ∀ v ∈ ([1, 5] : List ℕ), 0 ≤ v ∧ v ≤ 5) ∧
    calculateMandelbrotSet (fun i => if i = 0 then 3 else 1/2)
      (fun i => if i = 0 then 0 else 1/2) 2 5 2 true = some [1, 5] := by
  have hb : calculateMandelbrotSet (fun i => if i = 0 then 3 else 1/2)
      (fun i => if i = 0 then 0 else 1/2) 2 5 2 true = some [1, 5] := by
    norm_num [calculateMandelbrotSet, batchInner, List.range_succ]
  exact ⟨⟨(c5_result_in_range 3 0 2 5).1,
    (c5_result_in_range 3 0 2 5).2 (fun i => if i = 0 then 3 else 1/2)
      (fun i => if i = 0 then 0 else 1/2) 2 true [1, 5] hb⟩, hb⟩

/-- Counterexample to C6 as stated: even with `length = 0` the code calls
`malloc` and propagates its failure (the C standard permits `malloc(0)` to
return `NULL`, e.g. under heap exhaustion), so in a run whose allocation
fails the zero-length call returns the allocation-failure sentinel — it is
not the case that a zero-length call never returns the sentinel. -/
theorem c6_zero_length_sentinel_counterexample :
    calculateMandelbrotSet (fun _ => 0) (fun _ => 0) 0 1 2 false = none := by
  simp [calculateMandelbrotSet]

/-- C6 (amended): a zero-length batch call returns the valid zero-length
buffer whenever the allocation succeeds, and returns the
allocation-failure sentinel exactly when the underlying `malloc(0)` call
fails. -/
theorem c6_zero_length_batch (rc ic : ℕ → ℚ) (M : ℕ) (r : ℚ) (ok : Bool) :
    calculateMandelbrotSet rc ic 0 M r ok =
      if ok then some [] else none := by
  cases ok <;> simp [calculateMandelbrotSet]

/-- C7: when allocation of the result buffer fails the batch evaluator
returns the distinct sentinel `none` — no buffer, hence no partial writes,
is observable — and this outcome differs from every successful outcome. -/
theorem c7_alloc_failure_sentinel (rc ic : ℕ → ℚ) (len M : ℕ) (r : ℚ) :
    calculateMandelbrotSet rc ic len M r false = none ∧
    (∀ res : List ℕ, calculateMandelbrotSet rc ic len M r true = some res →
      calculateMandelbrotSet rc ic len M r false ≠ some res) := by
  refine ⟨by simp [calculateMandelbrotSet], ?_⟩
  intro res _
  simp [calculateMandelbrotSet]

/-- Witness for C7 on a one-point batch. -/
theorem c7_alloc_failure_sentinel_witness :
    calculateMandelbrotSet (fun _ => 1) (fun _ => 1) 1 3 2 false = none ∧
    (calculateMandelbrotSet (fun _ => 1) (fun _ => 1) 1 3 2 true =
        some [2] ∧
      calculateMandelbrotSet (fun _ => 1) (fun _ => 1) 1 3 2 false ≠
        some [2]) := by
  have hb : calculateMandelbrotSet (fun _ => 1) (fun _ => 1) 1 3 2 true =
      some [2] := by
    norm_num [calculateMandelbrotSet, batchInner, List.range_succ]
  exact ⟨(c7_alloc_failure_sentinel (fun _ => 1) (fun _ => 1) 1 3 2).1,
    hb, (c7_alloc_failure_sentinel (fun _ => 1) (fun _ => 1) 1 3 2).2 [2] hb⟩

/-- C8: for every budget `N ≥ 1`, `calculatePoint 3 0 N 2 = 1`: the orbit
of `c = 3` is `0, 3, ...`, `|z_0|^2 = 0` does not exceed `4`, and
`|z_1|^2 = 9 > 4`, so escape is detected at index `1` (and with `N = 1`
the loop also ends with counter `1`). -/
theorem c8_c_three_escapes_at_one (N : ℕ) (h : 1 ≤ N) :
    calculatePoint 3 0 N 2 = 1 := by
  match N, h with
  | 1, _ => norm_num [calculatePoint, pointLoop]
  | n + 2, _ =>
    have hesc : magSq (zseq 3 0 1) > (2 : ℚ) * 2 := by
      norm_num [zseq, magSq]
    have hmin : ∀ m, m < 1 → ¬ magSq (zseq 3 0 m) > (2 : ℚ) * 2 := by
      intro m hm
      interval_cases m
      norm_num [zseq, magSq]
    exact calculatePoint_first_escape 3 0 2 (n + 2) 1 (by omega) hesc hmin

/-- Witness for C8 at `N = 4`. -/
theorem c8_c_three_escapes_at_one_witness :
    (1 : ℕ) ≤ 4 ∧ calculatePoint 3 0 4 2 = 1 :=
  ⟨by decide, c8_c_three_escapes_at_one 4 (by decide)⟩

/-- C9: budget monotonicity of the single-point evaluator: for budgets
`N ≤ M` the result with budget `N` is the minimum of the result with
budget `M` and `N`; in particular once a point escapes within budget `N`,
every larger budget returns the same iteration count. -/
theorem c9_budget_monotonicity (c ci r : ℚ) (N M : ℕ) (h : N ≤ M) :
    calculatePoint c ci N r = min (calculatePoint c ci M r) N := by
  have hm := pointLoop_min c ci (r * r) N M 0 0 0 h
  simpa [calculatePoint] using hm

/-- Witness for C9 at `c = 3`, budgets `2 ≤ 7`. -/
theorem c9_budget_monotonicity_witness :
    (2 : ℕ) ≤ 7 ∧ calculatePoint 3 0 2 2 = min (calculatePoint 3 0 7 2) 2 :=
  ⟨by decide, c9_budget_monotonicity 3 0 2 2 7 (by decide)⟩

/-- C10: the sign of the escape radius is irrelevant to both evaluators,
because only `escape_radius * escape_radius` is ever compared against. -/
theorem c10_radius_sign_irrelevant (c ci : ℚ) (M : ℕ) (r : ℚ) :
    calculatePoint c ci M (-r) = calculatePoint c ci M r ∧
    (∀ (rc ic : ℕ → ℚ) (len : ℕ) (ok : Bool),
      calculateMandelbrotSet rc ic len M (-r) ok =
        calculateMandelbrotSet rc ic len M r ok) := by
  have key : -r * -r = r * r := by ring
  constructor
  · unfold calculatePoint
    rw [key]
  · intro rc ic len ok
    unfold calculateMandelbrotSet
    rw [key]

end Mandelbrot
